import Mathlib

/-!
Verification of the `extraction` package (heuristic metadata extraction from
HTML documents).

The HTML document handed to each technique is modelled as an already-parsed
element tree (`Node`), mirroring the `parsel.Selector` view of the document
that every technique works on.  Each XPath query the source code issues is
embedded as a Lean function on this tree:

* `//t`           : all elements named `t`, in document (preorder) order;
* `.//t`          : all strict-descendant elements named `t`;
* `//t/text()`    : the direct text children of all elements named `t`;
* `string(q)`     : the XPath string value of the first node matched by `q`
                    (the empty string if `q` matches nothing) — note that
                    parsel wraps this single string result in a one-element
                    selector list, which is why the `or []` and truthiness
                    guards in the source never skip it;
* `tag.attrib`    : an association-list lookup (first occurrence wins).

Python dictionaries of lists are modelled as insertion-ordered association
lists (`ExtDict`); Python string-or-None values are `Option String`.
-/

namespace Extraction

mutual

/-- Parsed HTML node: an element with a tag name, attributes and children, or
a text node. -/
inductive Node where
  | elem (tag : String) (attrs : List (String × String)) (children : NodeList)
  | text (s : String)

/-- A list of sibling nodes. -/
inductive NodeList where
  | nil
  | cons (n : Node) (ns : NodeList)

end

/-- Build a `NodeList` from a plain list of nodes. -/
def nodes : List Node → NodeList
  | [] => NodeList.nil
  | n :: ns => NodeList.cons n (nodes ns)

mutual

/-- All elements named `t` in the subtree rooted at the given node (the node
itself included), in document order: the XPath `//t` node-set. -/
def findAll (t : String) : Node → List Node
  | Node.text _ => []
  | Node.elem tag attrs cs =>
      (if tag = t then [Node.elem tag attrs cs] else []) ++ findAllL t cs

/-- All elements named `t` inside a list of sibling subtrees, in document
order. -/
def findAllL (t : String) : NodeList → List Node
  | NodeList.nil => []
  | NodeList.cons n ns => findAll t n ++ findAllL t ns

end

/-- All strict-descendant elements named `t` of the given node: the XPath
`.//t` node-set relative to that node. -/
def descAll (t : String) : Node → List Node
  | Node.text _ => []
  | Node.elem _ _ cs => findAllL t cs

mutual

/-- XPath string value of a node: the concatenation of all text in the
subtree, in document order. -/
def strValue : Node → String
  | Node.text s => s
  | Node.elem _ _ cs => strValueL cs

/-- Concatenated string value of a list of sibling subtrees. -/
def strValueL : NodeList → String
  | NodeList.nil => ""
  | NodeList.cons n ns => strValue n ++ strValueL ns

end

/-- Text nodes of a sibling list, in order. -/
def textsOf : NodeList → List String
  | NodeList.nil => []
  | NodeList.cons (Node.text s) ns => s :: textsOf ns
  | NodeList.cons (Node.elem _ _ _) ns => textsOf ns

/-- Direct text children of a node: the XPath `text()` step. -/
def childTexts : Node → List String
  | Node.text _ => []
  | Node.elem _ _ cs => textsOf cs

/-- Elements named `t` among a sibling list (the siblings themselves, not
their descendants). -/
def elemsNamed (t : String) : NodeList → List Node
  | NodeList.nil => []
  | NodeList.cons (Node.elem tag attrs cs) ns =>
      (if tag = t then [Node.elem tag attrs cs] else []) ++ elemsNamed t ns
  | NodeList.cons (Node.text _) ns => elemsNamed t ns

/-- Direct child elements named `t` of a node: the XPath child step `/t`. -/
def childElems (t : String) : Node → List Node
  | Node.text _ => []
  | Node.elem _ _ cs => elemsNamed t cs

/-- Attribute lookup in an attribute list (lxml keeps the first occurrence of
a duplicated attribute). -/
def attrLookup : List (String × String) → String → Option String
  | [], _ => Option.none
  | (k₁, v) :: rest, k => if k₁ = k then some v else attrLookup rest k

/-- Lookup of `node.attrib[k]` as an optional value; text nodes have no
attributes. -/
def nodeAttr : Node → String → Option String
  | Node.text _, _ => Option.none
  | Node.elem _ attrs _, k => attrLookup attrs k

/-- XPath `//t[@a="v"]`: elements named `t` whose attribute `a` equals `v`. -/
def findAllWithAttr (t a v : String) (doc : Node) : List Node :=
  (findAll t doc).filter fun n => nodeAttr n a = some v

/-- XPath `.//t[@a="v"]` relative to a node. -/
def descAllWithAttr (t a v : String) (n : Node) : List Node :=
  (descAll t n).filter fun m => nodeAttr m a = some v

/-- XPath `string(node-set)`: the string value of the first node of the set,
or the empty string for the empty set. -/
def stringOf : List Node → String
  | [] => ""
  | n :: _ => strValue n

/-- Python truthiness of an optional string: `None` and the empty string are
falsy. -/
def truthyOpt : Option String → Bool
  | Option.none => false
  | some s => !s.isEmpty

/-- Whether the second character list occurs at the start of the first. -/
def startsWithChars : List Char → List Char → Bool
  | _, [] => true
  | [], _ :: _ => false
  | a :: as, b :: bs => a == b && startsWithChars as bs

/-- Whether `needle` occurs as a contiguous run somewhere in the character
list. -/
def hasSubChars (needle : List Char) : List Char → Bool
  | [] => needle.isEmpty
  | c :: rest => startsWithChars (c :: rest) needle || hasSubChars needle rest

/-- Python substring containment `needle in hay` on strings. -/
def strHasSub (hay needle : String) : Bool :=
  hasSubChars needle.toList hay.toList

/-- Values stored in the extraction result lists: a Python string or `None`. -/
abbrev PyStr := Option String

/-- A Python dict mapping field names to lists of values, modelled as an
insertion-ordered association list. -/
abbrev ExtDict := List (String × List PyStr)

/-- The idiom `if dest not in extracted: extracted[dest] = []` followed by
`extracted[dest].append(v)`: append `v` to the entry for `k`, creating the
entry at the end if absent. -/
def dictAppend : ExtDict → String → PyStr → ExtDict
  | [], k, v => [(k, [v])]
  | (k₁, vs) :: rest, k, v =>
      if k₁ = k then (k₁, vs ++ [v]) :: rest else (k₁, vs) :: dictAppend rest k v

/-- Dict lookup: the value list of the first entry for `k`, if any. -/
def dictGet? : ExtDict → String → Option (List PyStr)
  | [], _ => Option.none
  | (k₁, vs) :: rest, k => if k₁ = k then some vs else dictGet? rest k

/-- The list stored under `k`, defaulting to the empty list. -/
def fieldList (d : ExtDict) (k : String) : List PyStr :=
  (dictGet? d k).getD []

/-- Concatenation of the value lists of every entry for `k` (equal to
`fieldList` on dicts without duplicate keys). -/
def getAll : ExtDict → String → List PyStr
  | [], _ => []
  | (k₁, vs) :: rest, k => (if k₁ = k then vs else []) ++ getAll rest k

/-- No list in the dict contains Python `None`. -/
def noNoneB (d : ExtDict) : Bool :=
  d.all fun kv => kv.2.all Option.isSome

/-- The known field vocabulary. -/
def vocab : List String :=
  ["titles", "descriptions", "images", "urls", "tags", "dates", "feeds",
   "authors", "videos", "addresses"]

/-- Every key of the dict belongs to the known field vocabulary. -/
def keysOkB (d : ExtDict) : Bool :=
  d.all fun kv => vocab.contains kv.1

/-! ## The techniques of `extraction/techniques.py` -/

/-- Embedding of `Technique.extract` (the base class): a fixed dict of empty
lists, ignoring the document. -/
def techniqueExtract (_doc : Node) : ExtDict :=
  [("titles", []), ("descriptions", []), ("images", []), ("urls", [])]

/-- Embedding of `HeadTags.meta_name_map`. -/
def meta_name_map : List (String × String) :=
  [("description", "descriptions"), ("author", "authors")]

/-- Python dict lookup in a literal string-to-string map. -/
def mapFind : List (String × String) → String → Option String
  | [], _ => Option.none
  | (k₁, v) :: rest, k => if k₁ = k then some v else mapFind rest k

/-- The meta-tag loop shared by `HeadTags.extract` (with key attribute
`name` and `meta_name_map`) and `FacebookOpengraphTags.extract` (with
`self.key_attr` and `self.property_map`): for each meta tag carrying the key
attribute and `content`, append the content under the mapped destination. -/
def metaMapFold (keyAttr : String) (propMap : List (String × String))
    (ms : List Node) (e : ExtDict) : ExtDict :=
  ms.foldl (fun e m =>
    match nodeAttr m keyAttr, nodeAttr m "content" with
    | some p, some c =>
        match mapFind propMap p with
        | some dest => dictAppend e dest (some c)
        | Option.none => e
    | _, _ => e) e

/-- The link-tag loop of `HeadTags.extract`: `rel` containing or equal to
`canonical` (with an `href`) feeds `urls`; otherwise `rel` containing or equal
to `alternate` with `type="application/rss+xml"` (and an `href`) feeds
`feeds`.  The `href` presence test common to both branches is factored into
the outer match. -/
def linkFold (ms : List Node) (e : ExtDict) : ExtDict :=
  ms.foldl (fun e l =>
    match nodeAttr l "rel", nodeAttr l "href" with
    | some rel, some href =>
        if strHasSub rel "canonical" || rel == "canonical" then
          dictAppend e "urls" (some href)
        else if (strHasSub rel "alternate" || rel == "alternate")
            && nodeAttr l "type" == some "application/rss+xml" then
          dictAppend e "feeds" (some href)
        else e
    | _, _ => e) e

/-- The direct text children of all `title` elements: `//title/text()`. -/
def titleTexts (doc : Node) : List String :=
  (findAll "title" doc).flatMap childTexts

/-- Embedding of `HeadTags.extract`: the first `//title/text()` node (set only
when truthy), then the meta-tag loop, then the link-tag loop. -/
def headTags (doc : Node) : ExtDict :=
  let title_tag := (titleTexts doc).head?
  let extracted : ExtDict :=
    if truthyOpt title_tag then [("titles", [title_tag])] else []
  let extracted := metaMapFold "name" meta_name_map (findAll "meta" doc) extracted
  linkFold (findAll "link" doc) extracted

/-- Embedding of `FacebookOpengraphTags.property_map`. -/
def fb_property_map : List (String × String) :=
  [("og:title", "titles"), ("og:url", "urls"), ("og:image", "images"),
   ("og:description", "descriptions")]

/-- Embedding of `FacebookOpengraphTags.extract`: the meta-tag loop over
`//meta` with key attribute `property`, starting from an empty dict. -/
def facebookOpengraphTags (doc : Node) : ExtDict :=
  metaMapFold "property" fb_property_map (findAll "meta" doc) []

/-- Embedding of `TwitterSummaryCardTags.property_map`. -/
def twitter_property_map : List (String × String) :=
  [("twitter:title", "titles"), ("twitter:description", "descriptions"),
   ("twitter:image", "images")]

/-- Embedding of `TwitterSummaryCardTags.extract` (inherited from
`FacebookOpengraphTags` with key attribute `name` and its own map). -/
def twitterSummaryCardTags (doc : Node) : ExtDict :=
  metaMapFold "name" twitter_property_map (findAll "meta" doc) []

/-- The `article` loop body of `HTML5SemanticTags.extract` for titles:
`title = article.xpath("string(.//h1)").extract()` is the one-element list of
the string value, appended (space-joined) when the list is truthy — which a
one-element list always is. -/
def html5TitleStep (ts : List PyStr) (article : Node) : List PyStr :=
  let title := [stringOf (descAll "h1" article)]
  if !title.isEmpty then ts ++ [some (String.intercalate " " title)] else ts

/-- The `article` loop body of `HTML5SemanticTags.extract` for descriptions,
analogous to `html5TitleStep` with `string(.//p)`. -/
def html5DescStep (ds : List PyStr) (article : Node) : List PyStr :=
  let desc := [stringOf (descAll "p" article)]
  if !desc.isEmpty then ds ++ [some (String.intercalate " " desc)] else ds

/-- The `source` loop body of `HTML5SemanticTags.extract`: append the `src`
attribute when present. -/
def html5SourceStep (vs : List PyStr) (source : Node) : List PyStr :=
  match nodeAttr source "src" with
  | some src => vs ++ [some src]
  | Option.none => vs

/-- The `video` loop body of `HTML5SemanticTags.extract`: run the `source`
loop over `.//source`. -/
def html5VideoStep (vs : List PyStr) (video : Node) : List PyStr :=
  (descAll "source" video).foldl html5SourceStep vs

/-- Embedding of `HTML5SemanticTags.extract`: the `//article` loop feeding
`titles` and `descriptions`, then the `.//video` loop feeding `videos`. -/
def html5SemanticTags (doc : Node) : ExtDict :=
  let titles := (findAll "article" doc).foldl html5TitleStep []
  let descriptions := (findAll "article" doc).foldl html5DescStep []
  let videos := (descAll "video" doc).foldl html5VideoStep []
  [("titles", titles), ("descriptions", descriptions), ("videos", videos)]

/-- Embedding of `SemanticTags.extract_string`: the string queries `string(//h1)`,
`string(//h2)`, `string(//h3)`, `string(//p)` are recorded by the element name
they query, with destination list and `store_first_n` cap. -/
def sem_extract_string : List (String × String × Nat) :=
  [("h1", "titles", 3), ("h2", "titles", 3), ("h3", "titles", 1),
   ("p", "descriptions", 5)]

/-- Embedding of `SemanticTags.extract_attr`. -/
def sem_extract_attr : List (String × String × String × Nat) :=
  [("img", "images", "src", 10)]

/-- One step of the attribute loop of `SemanticTags.extract`: append the
attribute value when present. -/
def semAttrStep (attrName dest : String) (e : ExtDict) (found : Node) : ExtDict :=
  match nodeAttr found attrName with
  | some v => dictAppend e dest (some v)
  | Option.none => e

/-- One entry of the string loop of `SemanticTags.extract`:
`soup.xpath(tag)[:max_to_store] or []` applied to the one-element string-query
result (the `or []` is the identity on it), appending each extracted string. -/
def semStringStep (doc : Node) (e : ExtDict) (q : String × String × Nat) : ExtDict :=
  (List.take q.2.2 [stringOf (findAll q.1 doc)]).foldl
    (fun e s => dictAppend e q.2.1 (some s)) e

/-- Embedding of `SemanticTags.extract`: the string queries, then the
attribute queries over the first `store_first_n` matched elements. -/
def semanticTags (doc : Node) : ExtDict :=
  let extracted := sem_extract_string.foldl (semStringStep doc) []
  sem_extract_attr.foldl (fun e q =>
    ((findAll q.1 doc).take q.2.2.2).foldl (semAttrStep q.2.2.1 q.2.1) e) extracted

/-- Embedding of `LethainComTechnique.extract`
(`extraction/examples/custom_technique.py`). -/
def lethainComTechnique (doc : Node) : ExtDict :=
  let page_div := findAllWithAttr "div" "class" "page" doc
  let text_div := findAllWithAttr "div" "class" "text" doc
  [("titles", [(page_div.map fun d => stringOf (descAll "h2" d)).head?]),
   ("dates", [(page_div.flatMap fun d =>
      (descAllWithAttr "span" "class" "date" d).flatMap childTexts).head?]),
   ("descriptions", [some (String.intercalate " "
      (text_div.map fun d => stringOf (descAll "p" d)))]),
   ("tags", (page_div.flatMap fun d =>
      (descAllWithAttr "span" "class" "tag" d).flatMap fun sp =>
        (childElems "a" sp).flatMap childTexts).map some),
   ("images", (text_div.flatMap fun d =>
      (descAll "img" d).filterMap fun n => nodeAttr n "src").map some)]

/-- Embedding of `AddressTechnique.extract`
(`extraction/examples/new_return_type.py`): `string(//div[@id="address"])`
wrapped in its one-element extract list and space-joined. -/
def addressTechnique (doc : Node) : ExtDict :=
  let div := [stringOf (findAllWithAttr "div" "id" "address" doc)]
  [("addresses", [some (String.intercalate " " div)])]

/-! ## The aggregator -/

/-- Append the values `vs` one by one to the entry for `k`. -/
def appendValues (e : ExtDict) (k : String) : List PyStr → ExtDict
  | [] => e
  | v :: vs => appendValues (dictAppend e k v) k vs

/-- Merge the dict returned by one technique into the running result, appending
each value under its field in order. -/
def mergeDict (e : ExtDict) : ExtDict → ExtDict
  | [] => e
  | (k, vs) :: rest => mergeDict (appendValues e k vs) rest

/-- Modelled from the spec: `Extractor.extract` lives in
`extraction/__init__.py`, which is not among the sources here; per the spec it
"runs the configured ordered technique list against one HTML document, merging
the mapping returned by each technique into a running result by appending new
values to the list of the corresponding field (preserving technique order, then
intra-technique order), skipping values absent from the output of a
technique". -/
def aggregate (ts : List (Node → ExtDict)) (doc : Node) : ExtDict :=
  ts.foldl (fun acc t => mergeDict acc (t doc)) []

/-- Modelled from the spec: the per-field "best value" accessors of the
`Extracted` record (`extraction/__init__.py`, not among the sources here)
return "the single best value per field (first element, or none)". -/
def bestOf (d : ExtDict) (k : String) : PyStr :=
  match fieldList d k with
  | [] => Option.none
  | v :: _ => v

/-! ## The `AddressExtracted` record of `extraction/examples/new_return_type.py` -/

/-- A Python value passed as the `addresses` argument of
`AddressExtracted.__init__`: `None`, a list, a tuple, or any other object
(described by a tag). -/
inductive AddrArg where
  | pyNone
  | pyList (xs : List PyStr)
  | pyTuple (xs : List PyStr)
  | pyOther (descr : String)
deriving DecidableEq

/-- Python `type(addresses) in (list, tuple)`. -/
def isListOrTuple : AddrArg → Bool
  | AddrArg.pyList _ => true
  | AddrArg.pyTuple _ => true
  | _ => false

/-- Embedding of `AddressExtracted.__init__` restricted to its `addresses`
argument (the remaining arguments are left at their defaults): `None` becomes
the empty list, then the assertion `type(addresses) in (list, tuple)` raises
on violation, otherwise the value is stored unchanged. -/
def addressExtractedInit (addresses : AddrArg) : Except String AddrArg :=
  let addresses := match addresses with
    | AddrArg.pyNone => AddrArg.pyList []
    | a => a
  if isListOrTuple addresses then Except.ok addresses
  else Except.error "addresses must be a list or tuple"

/-- The elements of the stored `addresses` value. -/
def addrElems : AddrArg → List PyStr
  | AddrArg.pyList xs => xs
  | AddrArg.pyTuple xs => xs
  | _ => []

/-- Embedding of the `AddressExtracted.address` property: the first element of
`self.addresses` if that list is truthy (non-empty), else `None`. -/
def addressProp (a : AddrArg) : PyStr :=
  match addrElems a with
  | [] => Option.none
  | x :: _ => x

/-! ## Concrete documents: the docstring examples and a tag-free document -/

/-- The example snippet in the `HeadTags` docstring (with HTML entities
decoded by the parser). -/
def headExample : Node :=
  Node.elem "head" [] (nodes [
    Node.elem "meta"
      [("http-equiv", "content-type"), ("content", "text/html; charset=UTF-8")]
      (nodes []),
    Node.elem "meta" [("name", "author"), ("content", "Will Larson")] (nodes []),
    Node.elem "meta"
      [("name", "description"),
       ("content", "Will Larson\x27s blog about programming and other things.")]
      (nodes []),
    Node.elem "meta"
      [("name", "keywords"), ("content", "Blog Will Larson Programming Life")]
      (nodes []),
    Node.elem "link"
      [("rel", "alternate"), ("type", "application/rss+xml"),
       ("title", "Page Feed"), ("href", "/feeds/")]
      (nodes []),
    Node.elem "link"
      [("rel", "canonical"),
       ("href", "http://lethain.com/digg-v4-architecture-process/")]
      (nodes []),
    Node.elem "title" []
      (nodes [Node.text
        "Digg v4\x27s Architecture and Development Processes - Irrational Exuberance"])])

/-- The example tags from the `FacebookOpengraphTags` docstring (the
`og:description` value keeps the line breaks and indentation of the source). -/
def fbExample : Node :=
  Node.elem "head" [] (nodes [
    Node.elem "meta" [("property", "og:title"), ("content", "The Rock")] (nodes []),
    Node.elem "meta" [("property", "og:type"), ("content", "movie")] (nodes []),
    Node.elem "meta"
      [("property", "og:url"), ("content", "http://www.imdb.com/title/tt0117500/")]
      (nodes []),
    Node.elem "meta"
      [("property", "og:image"), ("content", "http://ia.media-imdb.com/rock.jpg")]
      (nodes []),
    Node.elem "meta" [("property", "og:site_name"), ("content", "IMDb")] (nodes []),
    Node.elem "meta" [("property", "fb:admins"), ("content", "USER_ID")] (nodes []),
    Node.elem "meta"
      [("property", "og:description"),
       ("content", "A group of U.S. Marines, under command of\n                     a renegade general, take over Alcatraz and\n                     threaten San Francisco Bay with biological\n                     weapons.")]
      (nodes [])])

/-- The example page from the `HTML5SemanticTags` docstring. -/
def html5Example : Node :=
  Node.elem "html" [] (nodes [
    Node.elem "body" [] (nodes [
      Node.elem "h1" [] (nodes [Node.text "This is not a title to HTML5SemanticTags"]),
      Node.elem "article" [] (nodes [
        Node.elem "h1" [] (nodes [Node.text "This is a title"]),
        Node.elem "p" [] (nodes [Node.text "This is a description."]),
        Node.elem "p" [] (nodes [Node.text "This is not a description."])]),
      Node.elem "video" [] (nodes [
        Node.elem "source" [("src", "this_is_a_video.mp4")] (nodes [])])])])

/-- A document containing none of the tags any technique recognizes. -/
def noTagsDoc : Node :=
  Node.elem "html" [] (nodes [Node.elem "body" [] (nodes [])])

/-! ## Derived views used to state the claims -/

/-- Combine a dict entry with values appended after it: `combineOpt o l` is
`o` when `l` is empty, otherwise the (possibly freshly created) entry extended
by `l`. -/
def combineOpt : Option (List PyStr) → List PyStr → Option (List PyStr)
  | o, [] => o
  | Option.none, l => some l
  | some vs, l => some (vs ++ l)

/-- The contents the meta-tag loop appends under destination `k`, in document
order. -/
def metaDest (ka : String) (pm : List (String × String)) (ms : List Node)
    (k : String) : List String :=
  ms.filterMap fun m =>
    match nodeAttr m ka, nodeAttr m "content" with
    | some p, some c => if mapFind pm p = some k then some c else Option.none
    | _, _ => Option.none

/-- The `content` attributes of the meta tags whose key attribute `ka` equals
`prop`, in document order. -/
def propContents (ka prop : String) (ms : List Node) : List String :=
  ms.filterMap fun m =>
    match nodeAttr m ka, nodeAttr m "content" with
    | some p, some c => if p = prop then some c else Option.none
    | _, _ => Option.none

/-- The `content` attributes of the `//meta` tags of `doc` whose `property`
attribute equals `prop`, in document order. -/
def ogMetaContents (doc : Node) (prop : String) : List String :=
  propContents "property" prop (findAll "meta" doc)

/-- The title values `SemanticTags.extract` draws from its `h1` and `h2`
string queries (each capped at its `store_first_n`). -/
def semTitlesFromH1H2 (doc : Node) : List String :=
  List.take 3 [stringOf (findAll "h1" doc)] ++ List.take 3 [stringOf (findAll "h2" doc)]

/-- The title values `SemanticTags.extract` draws from its `h3` string query
(capped at its `store_first_n` of 1). -/
def semTitlesFromH3 (doc : Node) : List String :=
  List.take 1 [stringOf (findAll "h3" doc)]

end Extraction


namespace Extraction

/-! ## Dictionary lemmas -/

theorem dictGet?_dictAppend (d : ExtDict) (k₀ k : String) (v : PyStr) :
    dictGet? (dictAppend d k₀ v) k =
      if k₀ = k then some ((dictGet? d k).getD [] ++ [v]) else dictGet? d k := by
  induction d with
  | nil => by_cases h : k₀ = k <;> simp [dictAppend, dictGet?, h]
  | cons hd tl ih =>
      obtain ⟨k₁, vs⟩ := hd
      by_cases h1 : k₁ = k₀
      · subst h1
        by_cases h2 : k₁ = k <;> simp [dictAppend, dictGet?, h2]
      · by_cases h2 : k₁ = k
        · subst h2
          have h3 : k₀ ≠ k₁ := fun h => h1 h.symm
          simp [dictAppend, dictGet?, h1, h3]
        · simp [dictAppend, dictGet?, h1, h2, ih]

theorem combineOpt_dictAppend (e : ExtDict) (k₀ k : String) (v : PyStr)
    (l : List PyStr) :
    combineOpt (dictGet? (dictAppend e k₀ v) k) l =
      combineOpt (dictGet? e k) (if k₀ = k then v :: l else l) := by
  rw [dictGet?_dictAppend]
  by_cases h : k₀ = k
  · simp only [h, if_pos rfl, if_pos]
    cases hd : dictGet? e k <;> cases l <;> simp [combineOpt, hd]
  · simp [h]

theorem fieldList_dictAppend (e : ExtDict) (k₀ k : String) (v : PyStr) :
    fieldList (dictAppend e k₀ v) k =
      if k₀ = k then fieldList e k ++ [v] else fieldList e k := by
  simp only [fieldList, dictGet?_dictAppend]
  by_cases h : k₀ = k <;> simp [h]

theorem fieldList_appendValues (k k₁ : String) (vs : List PyStr) (e : ExtDict) :
    fieldList (appendValues e k vs) k₁ =
      fieldList e k₁ ++ if k = k₁ then vs else [] := by
  induction vs generalizing e with
  | nil => simp [appendValues]
  | cons v vs ih =>
      rw [appendValues, ih, fieldList_dictAppend]
      by_cases h : k = k₁ <;> simp [h]

theorem fieldList_mergeDict (d e : ExtDict) (k : String) :
    fieldList (mergeDict e d) k = fieldList e k ++ getAll d k := by
  induction d generalizing e with
  | nil => simp [mergeDict, getAll]
  | cons kv rest ih =>
      obtain ⟨k₀, vs⟩ := kv
      rw [mergeDict, ih, fieldList_appendValues, getAll]
      by_cases h : k₀ = k <;> simp [h]

theorem fieldList_nil (k : String) : fieldList [] k = [] := rfl

end Extraction

namespace Extraction

/-! ## Fold lemmas for the technique loops -/

theorem metaMapFold_dictGet (ka : String) (pm : List (String × String))
    (ms : List Node) (e : ExtDict) (k : String) :
    dictGet? (metaMapFold ka pm ms e) k =
      combineOpt (dictGet? e k) ((metaDest ka pm ms k).map some) := by
  induction ms generalizing e with
  | nil => simp [metaMapFold, metaDest, combineOpt]
  | cons m ms ih =>
      simp only [metaMapFold, List.foldl_cons] at ih ⊢
      simp only [metaDest, List.filterMap_cons]
      cases h1 : nodeAttr m ka with
      | none => simp only [h1]; exact ih e
      | some p =>
          cases h2 : nodeAttr m "content" with
          | none => simp only [h1, h2]; exact ih e
          | some c =>
              cases h3 : mapFind pm p with
              | none =>
                  have h4 : (mapFind pm p = some k) = False := by simp [h3]
                  simp only [h1, h2, h3, h4, if_false, ite_false]
                  exact ih e
              | some dest =>
                  by_cases h5 : dest = k
                  · subst h5
                    simp only [h1, h2, h3, if_pos rfl]
                    rw [ih (dictAppend e dest (some c)), combineOpt_dictAppend]
                    simp [metaDest]
                  · have h4 : (mapFind pm p = some k) = False := by simp [h3, h5]
                    simp only [h1, h2, h3, h4, if_false, ite_false]
                    rw [ih (dictAppend e dest (some c)), combineOpt_dictAppend]
                    simp [h5, metaDest]

end Extraction

namespace Extraction

theorem linkFold_dictGet_ne (ms : List Node) (e : ExtDict) (k : String)
    (hu : k ≠ "urls") (hf : k ≠ "feeds") :
    dictGet? (linkFold ms e) k = dictGet? e k := by
  induction ms generalizing e with
  | nil => simp [linkFold]
  | cons l ms ih =>
      simp only [linkFold, List.foldl_cons] at ih ⊢
      cases h1 : nodeAttr l "rel" with
      | none => simp only [h1]; exact ih e
      | some rel =>
          cases h2 : nodeAttr l "href" with
          | none => simp only [h1, h2]; exact ih e
          | some href =>
              simp only [h1, h2]
              by_cases h3 : (strHasSub rel "canonical" || rel == "canonical") = true
              · rw [if_pos h3, ih (dictAppend e "urls" (some href)), dictGet?_dictAppend]
                simp [Ne.symm hu]
              · rw [if_neg h3]
                by_cases h4 : ((strHasSub rel "alternate" || rel == "alternate")
                    && nodeAttr l "type" == some "application/rss+xml") = true
                · rw [if_pos h4, ih (dictAppend e "feeds" (some href)), dictGet?_dictAppend]
                  simp [Ne.symm hf]
                · rw [if_neg h4]
                  exact ih e

theorem stringsFold_dictGet (dest : String) (l : List String) (e : ExtDict)
    (k : String) :
    dictGet? (l.foldl (fun e s => dictAppend e dest (some s)) e) k =
      combineOpt (dictGet? e k) (if dest = k then l.map some else []) := by
  induction l generalizing e with
  | nil => by_cases h : dest = k <;> simp [h, combineOpt]
  | cons s l ih =>
      simp only [List.foldl_cons]
      rw [ih (dictAppend e dest (some s)), combineOpt_dictAppend]
      by_cases h : dest = k <;> simp [h]

theorem semAttrFold_dictGet (a d : String) (ms : List Node) (e : ExtDict)
    (k : String) :
    dictGet? (ms.foldl (semAttrStep a d) e) k =
      combineOpt (dictGet? e k)
        (if d = k then (ms.filterMap fun n => nodeAttr n a).map some else []) := by
  induction ms generalizing e with
  | nil => by_cases h : d = k <;> simp [h, combineOpt]
  | cons m ms ih =>
      simp only [List.foldl_cons, List.filterMap_cons]
      cases h1 : nodeAttr m a with
      | none => simp only [semAttrStep, h1]; exact ih e
      | some v =>
          simp only [semAttrStep, h1]
          rw [ih (dictAppend e d (some v)), combineOpt_dictAppend]
          by_cases h : d = k <;> simp [h]

end Extraction

namespace Extraction

/-! ## Helpers about specific maps and `combineOpt` -/

theorem combineOpt_none_getD (l : List PyStr) :
    (combineOpt Option.none l).getD [] = l := by
  cases l <;> rfl

theorem combineOpt_some_ne_nil (l : List PyStr) (hl : l ≠ []) :
    combineOpt Option.none l = some l := by
  cases l with
  | nil => exact absurd rfl hl
  | cons x xs => rfl

theorem metaDest_eq_nil (ka : String) (pm : List (String × String))
    (ms : List Node) (k : String) (h : ∀ p, mapFind pm p ≠ some k) :
    metaDest ka pm ms k = [] := by
  rw [metaDest, List.filterMap_eq_nil_iff]
  intro m _
  cases h1 : nodeAttr m ka with
  | none => rfl
  | some p =>
      cases h2 : nodeAttr m "content" with
      | none => rfl
      | some c => simp [h p]

theorem meta_name_map_no_titles (p : String) :
    mapFind meta_name_map p ≠ some "titles" := by
  intro h
  rw [meta_name_map, mapFind] at h
  by_cases h1 : "description" = p
  · rw [if_pos h1] at h
    simp at h
  · rw [if_neg h1, mapFind] at h
    by_cases h2 : "author" = p
    · rw [if_pos h2] at h
      simp at h
    · rw [if_neg h2, mapFind] at h
      exact Option.noConfusion h

theorem mapFind_mem_snd (pm : List (String × String)) (p dest : String)
    (h : mapFind pm p = some dest) : dest ∈ pm.map Prod.snd := by
  induction pm with
  | nil => rw [mapFind] at h; exact Option.noConfusion h
  | cons kv rest ih =>
      obtain ⟨k₁, v₁⟩ := kv
      rw [mapFind] at h
      by_cases h1 : k₁ = p
      · rw [if_pos h1] at h
        simp only [Option.some_inj] at h
        subst h
        simp
      · rw [if_neg h1] at h
        simp [ih h]

end Extraction

namespace Extraction

/-! ## Preservation lemmas: no `None` values -/

theorem noNoneB_dictAppend (d : ExtDict) (k : String) (v : PyStr)
    (hd : noNoneB d = true) (hv : v.isSome = true) :
    noNoneB (dictAppend d k v) = true := by
  induction d with
  | nil => simp [dictAppend, noNoneB, hv]
  | cons kv rest ih =>
      obtain ⟨k₁, vs⟩ := kv
      simp only [noNoneB, List.all_cons, Bool.and_eq_true] at hd
      by_cases h : k₁ = k
      · rw [dictAppend, if_pos h]
        simp [noNoneB, hd.1, hd.2, hv]
      · rw [dictAppend, if_neg h]
        have := ih hd.2
        simp only [noNoneB, List.all_cons, Bool.and_eq_true] at this ⊢
        exact ⟨hd.1, this⟩

theorem metaMapFold_noNone (ka : String) (pm : List (String × String))
    (ms : List Node) (e : ExtDict) (he : noNoneB e = true) :
    noNoneB (metaMapFold ka pm ms e) = true := by
  induction ms generalizing e with
  | nil => simpa [metaMapFold] using he
  | cons m ms ih =>
      simp only [metaMapFold, List.foldl_cons] at ih ⊢
      cases h1 : nodeAttr m ka with
      | none => exact ih e he
      | some p =>
          cases h2 : nodeAttr m "content" with
          | none => simp only [h1, h2]; exact ih e he
          | some c =>
              cases h3 : mapFind pm p with
              | none => simp only [h1, h2, h3]; exact ih e he
              | some dest =>
                  simp only [h1, h2, h3]
                  exact ih _ (noNoneB_dictAppend e dest (some c) he rfl)

theorem linkFold_noNone (ms : List Node) (e : ExtDict)
    (he : noNoneB e = true) : noNoneB (linkFold ms e) = true := by
  induction ms generalizing e with
  | nil => simpa [linkFold] using he
  | cons l ms ih =>
      simp only [linkFold, List.foldl_cons] at ih ⊢
      cases h1 : nodeAttr l "rel" with
      | none => exact ih e he
      | some rel =>
          cases h2 : nodeAttr l "href" with
          | none => simp only [h1, h2]; exact ih e he
          | some href =>
              simp only [h1, h2]
              by_cases h3 : (strHasSub rel "canonical" || rel == "canonical") = true
              · rw [if_pos h3]
                exact ih _ (noNoneB_dictAppend e "urls" (some href) he rfl)
              · rw [if_neg h3]
                by_cases h4 : ((strHasSub rel "alternate" || rel == "alternate")
                    && nodeAttr l "type" == some "application/rss+xml") = true
                · rw [if_pos h4]
                  exact ih _ (noNoneB_dictAppend e "feeds" (some href) he rfl)
                · rw [if_neg h4]
                  exact ih e he

theorem stringsFold_noNone (dest : String) (l : List String) (e : ExtDict)
    (he : noNoneB e = true) :
    noNoneB (l.foldl (fun e s => dictAppend e dest (some s)) e) = true := by
  induction l generalizing e with
  | nil => simpa using he
  | cons s l ih =>
      simp only [List.foldl_cons]
      exact ih _ (noNoneB_dictAppend e dest (some s) he rfl)

theorem semStringQueries_noNone (doc : Node) (qs : List (String × String × Nat))
    (e : ExtDict) (he : noNoneB e = true) :
    noNoneB (qs.foldl (semStringStep doc) e) = true := by
  induction qs generalizing e with
  | nil => simpa using he
  | cons q qs ih =>
      simp only [List.foldl_cons]
      exact ih _ (stringsFold_noNone q.2.1 _ e he)

theorem semAttrFold_noNone (a d : String) (ms : List Node) (e : ExtDict)
    (he : noNoneB e = true) :
    noNoneB (ms.foldl (semAttrStep a d) e) = true := by
  induction ms generalizing e with
  | nil => simpa using he
  | cons m ms ih =>
      simp only [List.foldl_cons]
      cases h1 : nodeAttr m a with
      | none => simp only [semAttrStep, h1]; exact ih e he
      | some v =>
          simp only [semAttrStep, h1]
          exact ih _ (noNoneB_dictAppend e d (some v) he rfl)

theorem semAttrQueries_noNone (doc : Node)
    (qs : List (String × String × String × Nat)) (e : ExtDict)
    (he : noNoneB e = true) :
    noNoneB (qs.foldl (fun e q =>
      ((findAll q.1 doc).take q.2.2.2).foldl (semAttrStep q.2.2.1 q.2.1) e) e) = true := by
  induction qs generalizing e with
  | nil => simpa using he
  | cons q qs ih =>
      simp only [List.foldl_cons]
      exact ih _ (semAttrFold_noNone q.2.2.1 q.2.1 _ e he)

theorem appendSomeFold_all (f : Node → String) (ns : List Node)
    (acc : List PyStr) (hacc : acc.all Option.isSome = true) :
    (ns.foldl (fun acc n => acc ++ [some (f n)]) acc).all Option.isSome = true := by
  induction ns generalizing acc with
  | nil => simpa using hacc
  | cons n ns ih =>
      simp only [List.foldl_cons]
      exact ih _ (by simp [hacc])

end Extraction

namespace Extraction

theorem html5TitleFold_all (ns : List Node) (acc : List PyStr)
    (hacc : acc.all Option.isSome = true) :
    (ns.foldl html5TitleStep acc).all Option.isSome = true := by
  induction ns generalizing acc with
  | nil => simpa using hacc
  | cons n ns ih =>
      simp only [List.foldl_cons]
      exact ih _ (by simp [html5TitleStep, hacc])

theorem html5DescFold_all (ns : List Node) (acc : List PyStr)
    (hacc : acc.all Option.isSome = true) :
    (ns.foldl html5DescStep acc).all Option.isSome = true := by
  induction ns generalizing acc with
  | nil => simpa using hacc
  | cons n ns ih =>
      simp only [List.foldl_cons]
      exact ih _ (by simp [html5DescStep, hacc])

theorem html5SourceFold_all (ns : List Node) (acc : List PyStr)
    (hacc : acc.all Option.isSome = true) :
    (ns.foldl html5SourceStep acc).all Option.isSome = true := by
  induction ns generalizing acc with
  | nil => simpa using hacc
  | cons n ns ih =>
      simp only [List.foldl_cons]
      refine ih _ ?_
      cases h1 : nodeAttr n "src" with
      | none => simpa [html5SourceStep, h1] using hacc
      | some src => simp [html5SourceStep, h1, hacc]

theorem html5VideoFold_all (ns : List Node) (acc : List PyStr)
    (hacc : acc.all Option.isSome = true) :
    (ns.foldl html5VideoStep acc).all Option.isSome = true := by
  induction ns generalizing acc with
  | nil => simpa using hacc
  | cons n ns ih =>
      simp only [List.foldl_cons]
      exact ih _ (html5SourceFold_all _ acc hacc)

/-! ## Preservation lemmas: keys stay in the vocabulary -/

theorem keysOkB_dictAppend (d : ExtDict) (k : String) (v : PyStr)
    (hd : keysOkB d = true) (hk : vocab.contains k = true) :
    keysOkB (dictAppend d k v) = true := by
  induction d with
  | nil =>
      rw [dictAppend]
      simp only [keysOkB, List.all_cons, List.all_nil, Bool.and_true]
      exact hk
  | cons kv rest ih =>
      obtain ⟨k₁, vs⟩ := kv
      simp only [keysOkB, List.all_cons, Bool.and_eq_true] at hd
      by_cases h : k₁ = k
      · rw [dictAppend, if_pos h]
        simp only [keysOkB, List.all_cons, Bool.and_eq_true]
        exact ⟨hd.1, hd.2⟩
      · rw [dictAppend, if_neg h]
        have h2 := ih hd.2
        simp only [keysOkB, List.all_cons, Bool.and_eq_true] at h2 ⊢
        exact ⟨hd.1, h2⟩

theorem metaMapFold_keysOk (ka : String) (pm : List (String × String))
    (hpm : ∀ dest ∈ pm.map Prod.snd, vocab.contains dest = true)
    (ms : List Node) (e : ExtDict) (he : keysOkB e = true) :
    keysOkB (metaMapFold ka pm ms e) = true := by
  induction ms generalizing e with
  | nil => simpa [metaMapFold] using he
  | cons m ms ih =>
      simp only [metaMapFold, List.foldl_cons] at ih ⊢
      cases h1 : nodeAttr m ka with
      | none => exact ih e he
      | some p =>
          cases h2 : nodeAttr m "content" with
          | none => simp only [h1, h2]; exact ih e he
          | some c =>
              cases h3 : mapFind pm p with
              | none => simp only [h1, h2, h3]; exact ih e he
              | some dest =>
                  simp only [h1, h2, h3]
                  exact ih _ (keysOkB_dictAppend e dest (some c) he
                    (hpm dest (mapFind_mem_snd pm p dest h3)))

theorem linkFold_keysOk (ms : List Node) (e : ExtDict)
    (he : keysOkB e = true) : keysOkB (linkFold ms e) = true := by
  induction ms generalizing e with
  | nil => simpa [linkFold] using he
  | cons l ms ih =>
      simp only [linkFold, List.foldl_cons] at ih ⊢
      cases h1 : nodeAttr l "rel" with
      | none => exact ih e he
      | some rel =>
          cases h2 : nodeAttr l "href" with
          | none => simp only [h1, h2]; exact ih e he
          | some href =>
              simp only [h1, h2]
              by_cases h3 : (strHasSub rel "canonical" || rel == "canonical") = true
              · rw [if_pos h3]
                exact ih _ (keysOkB_dictAppend e "urls" (some href) he (by decide))
              · rw [if_neg h3]
                by_cases h4 : ((strHasSub rel "alternate" || rel == "alternate")
                    && nodeAttr l "type" == some "application/rss+xml") = true
                · rw [if_pos h4]
                  exact ih _ (keysOkB_dictAppend e "feeds" (some href) he (by decide))
                · rw [if_neg h4]
                  exact ih e he

theorem stringsFold_keysOk (dest : String) (hdest : vocab.contains dest = true)
    (l : List String) (e : ExtDict) (he : keysOkB e = true) :
    keysOkB (l.foldl (fun e s => dictAppend e dest (some s)) e) = true := by
  induction l generalizing e with
  | nil => simpa using he
  | cons s l ih =>
      simp only [List.foldl_cons]
      exact ih _ (keysOkB_dictAppend e dest (some s) he hdest)

theorem semStringQueries_keysOk (doc : Node) (qs : List (String × String × Nat))
    (hqs : ∀ q ∈ qs, vocab.contains q.2.1 = true) (e : ExtDict)
    (he : keysOkB e = true) :
    keysOkB (qs.foldl (semStringStep doc) e) = true := by
  induction qs generalizing e with
  | nil => simpa using he
  | cons q qs ih =>
      simp only [List.foldl_cons]
      exact ih (fun q hq => hqs q (List.mem_cons_of_mem _ hq)) _
        (stringsFold_keysOk q.2.1 (hqs q (List.mem_cons_self _ _)) _ e he)

theorem semAttrFold_keysOk (a d : String) (hd : vocab.contains d = true)
    (ms : List Node) (e : ExtDict) (he : keysOkB e = true) :
    keysOkB (ms.foldl (semAttrStep a d) e) = true := by
  induction ms generalizing e with
  | nil => simpa using he
  | cons m ms ih =>
      simp only [List.foldl_cons]
      cases h1 : nodeAttr m a with
      | none => simp only [semAttrStep, h1]; exact ih e he
      | some v =>
          simp only [semAttrStep, h1]
          exact ih _ (keysOkB_dictAppend e d (some v) he hd)

theorem semAttrQueries_keysOk (doc : Node)
    (qs : List (String × String × String × Nat))
    (hqs : ∀ q ∈ qs, vocab.contains q.2.1 = true) (e : ExtDict)
    (he : keysOkB e = true) :
    keysOkB (qs.foldl (fun e q =>
      ((findAll q.1 doc).take q.2.2.2).foldl (semAttrStep q.2.2.1 q.2.1) e) e) = true := by
  induction qs generalizing e with
  | nil => simpa using he
  | cons q qs ih =>
      simp only [List.foldl_cons]
      exact ih (fun q hq => hqs q (List.mem_cons_of_mem _ hq)) _
        (semAttrFold_keysOk q.2.2.1 q.2.1 (hqs q (List.mem_cons_self _ _)) _ e he)

end Extraction

namespace Extraction

/-- C1: for every HTML document, the `SemanticTags` technique returns a
`titles` list containing at most 3 values sourced from the h1/h2 queries
combined and at most 1 value sourced from the h3 query, a `descriptions` list
of at most 5 values, and an `images` list of at most 10 values, no matter how
many matching tags the document contains. -/
theorem semanticTags_caps (doc : Node) :
    fieldList (semanticTags doc) "titles"
      = (semTitlesFromH1H2 doc ++ semTitlesFromH3 doc).map some ∧
    (semTitlesFromH1H2 doc).length ≤ 3 ∧
    (semTitlesFromH3 doc).length ≤ 1 ∧
    (fieldList (semanticTags doc) "descriptions").length ≤ 5 ∧
    (fieldList (semanticTags doc) "images").length ≤ 10 := by
  have hE : ∀ k, dictGet? (sem_extract_string.foldl (semStringStep doc) []) k =
      combineOpt (combineOpt (combineOpt (combineOpt (dictGet? ([] : ExtDict) k)
        (if "titles" = k then [some (stringOf (findAll "h1" doc))] else []))
        (if "titles" = k then [some (stringOf (findAll "h2" doc))] else []))
        (if "titles" = k then [some (stringOf (findAll "h3" doc))] else []))
        (if "descriptions" = k then [some (stringOf (findAll "p" doc))] else []) := by
    intro k
    simp only [sem_extract_string, List.foldl_cons, List.foldl_nil, semStringStep]
    rw [stringsFold_dictGet, stringsFold_dictGet, stringsFold_dictGet,
      stringsFold_dictGet]
    rfl
  have hsem : ∀ k, dictGet? (semanticTags doc) k =
      combineOpt (dictGet? (sem_extract_string.foldl (semStringStep doc) []) k)
        (if "images" = k
          then (((findAll "img" doc).take 10).filterMap fun n => nodeAttr n "src").map some
          else []) := by
    intro k
    simp only [semanticTags, sem_extract_attr, List.foldl_cons, List.foldl_nil]
    rw [semAttrFold_dictGet]
  have hd : dictGet? (semanticTags doc) "descriptions"
      = some [some (stringOf (findAll "p" doc))] := by
    rw [hsem "descriptions", hE "descriptions"]
    rfl
  have himg : dictGet? (semanticTags doc) "images"
      = combineOpt Option.none
          ((((findAll "img" doc).take 10).filterMap fun n => nodeAttr n "src").map some) := by
    rw [hsem "images", hE "images"]
    rfl
  refine ⟨?_, ?_, ?_, ?_, ?_⟩
  · rw [fieldList, hsem "titles", hE "titles"]
    rfl
  · have h : semTitlesFromH1H2 doc
        = [stringOf (findAll "h1" doc), stringOf (findAll "h2" doc)] := rfl
    rw [h]
    simp
  · have h : semTitlesFromH3 doc = [stringOf (findAll "h3" doc)] := rfl
    rw [h]
    simp
  · rw [fieldList, hd]
    simp
  · rw [fieldList, himg, combineOpt_none_getD, List.length_map]
    exact le_trans (List.length_filterMap_le _ _)
      (by rw [List.length_take]; exact min_le_left _ _)

end Extraction

namespace Extraction

/-- C3: for every well-formed HTML document containing a `<title>` tag — one
title tag holding a single (hence non-empty) text node, which is what the
lenient parser produces for well-formed HTML — `HeadTags.extract` returns a
mapping whose `titles` field equals the one-element list containing exactly
the text of that title tag. -/
theorem headTags_title_singleton (doc : Node) (t : String)
    (h : titleTexts doc = [t]) (ht : t ≠ "") :
    dictGet? (headTags doc) "titles" = some [some t] := by
  have htruthy : truthyOpt ([t] : List String).head? = true := by
    show (!t.isEmpty) = true
    cases hh : t.isEmpty with
    | false => rfl
    | true => exact absurd ((String.isEmpty_iff t).mp hh) ht
  simp only [headTags, h]
  rw [if_pos htruthy,
    linkFold_dictGet_ne _ _ _ (by decide) (by decide),
    metaMapFold_dictGet,
    metaDest_eq_nil _ _ _ _ meta_name_map_no_titles]
  rfl

/-- C4: for every HTML document containing Open-Graph `og:title`,
`og:description` and `og:image` meta tags, `FacebookOpengraphTags.extract`
maps `titles`, `descriptions` and `images` to exactly the `content`
attributes of those tags, one value per matching tag, in document order. -/
theorem facebookOpengraph_fields (doc : Node)
    (hT : ogMetaContents doc "og:title" ≠ [])
    (hD : ogMetaContents doc "og:description" ≠ [])
    (hI : ogMetaContents doc "og:image" ≠ []) :
    dictGet? (facebookOpengraphTags doc) "titles"
      = some ((ogMetaContents doc "og:title").map some) ∧
    dictGet? (facebookOpengraphTags doc) "descriptions"
      = some ((ogMetaContents doc "og:description").map some) ∧
    dictGet? (facebookOpengraphTags doc) "images"
      = some ((ogMetaContents doc "og:image").map some) := by
  have key : ∀ (k prop : String), (∀ p, (mapFind fb_property_map p = some k) ↔ p = prop) →
      metaDest "property" fb_property_map (findAll "meta" doc) k
        = ogMetaContents doc prop := by
    intro k prop hiff
    rw [metaDest, ogMetaContents, propContents]
    apply List.filterMap_congr
    intro m _
    cases h1 : nodeAttr m "property" with
    | none => rfl
    | some p =>
        cases h2 : nodeAttr m "content" with
        | none => rfl
        | some c =>
            show (if mapFind fb_property_map p = some k then some c else Option.none)
              = (if p = prop then some c else Option.none)
            by_cases h3 : p = prop
            · rw [if_pos ((hiff p).mpr h3), if_pos h3]
            · rw [if_neg (fun hmem => h3 ((hiff p).mp hmem)), if_neg h3]
  have ht := key "titles" "og:title" (by
    intro p
    constructor
    · intro hp
      rw [fb_property_map, mapFind] at hp
      by_cases e1 : "og:title" = p
      · exact e1.symm
      · rw [if_neg e1, mapFind] at hp
        by_cases e2 : "og:url" = p
        · rw [if_pos e2] at hp; simp at hp
        · rw [if_neg e2, mapFind] at hp
          by_cases e3 : "og:image" = p
          · rw [if_pos e3] at hp; simp at hp
          · rw [if_neg e3, mapFind] at hp
            by_cases e4 : "og:description" = p
            · rw [if_pos e4] at hp; simp at hp
            · rw [if_neg e4, mapFind] at hp; exact Option.noConfusion hp
    · intro hp
      subst hp
      rfl)
  have hd := key "descriptions" "og:description" (by
    intro p
    constructor
    · intro hp
      rw [fb_property_map, mapFind] at hp
      by_cases e1 : "og:title" = p
      · rw [if_pos e1] at hp; simp at hp
      · rw [if_neg e1, mapFind] at hp
        by_cases e2 : "og:url" = p
        · rw [if_pos e2] at hp; simp at hp
        · rw [if_neg e2, mapFind] at hp
          by_cases e3 : "og:image" = p
          · rw [if_pos e3] at hp; simp at hp
          · rw [if_neg e3, mapFind] at hp
            by_cases e4 : "og:description" = p
            · exact e4.symm
            · rw [if_neg e4, mapFind] at hp; exact Option.noConfusion hp
    · intro hp
      subst hp
      rfl)
  have hi := key "images" "og:image" (by
    intro p
    constructor
    · intro hp
      rw [fb_property_map, mapFind] at hp
      by_cases e1 : "og:title" = p
      · rw [if_pos e1] at hp; simp at hp
      · rw [if_neg e1, mapFind] at hp
        by_cases e2 : "og:url" = p
        · rw [if_pos e2] at hp; simp at hp
        · rw [if_neg e2, mapFind] at hp
          by_cases e3 : "og:image" = p
          · exact e3.symm
          · rw [if_neg e3, mapFind] at hp
            by_cases e4 : "og:description" = p
            · rw [if_pos e4] at hp; simp at hp
            · rw [if_neg e4, mapFind] at hp; exact Option.noConfusion hp
    · intro hp
      subst hp
      rfl)
  refine ⟨?_, ?_, ?_⟩
  · rw [facebookOpengraphTags, metaMapFold_dictGet, ht]
    exact combineOpt_some_ne_nil _ (by simpa using hT)
  · rw [facebookOpengraphTags, metaMapFold_dictGet, hd]
    exact combineOpt_some_ne_nil _ (by simpa using hD)
  · rw [facebookOpengraphTags, metaMapFold_dictGet, hi]
    exact combineOpt_some_ne_nil _ (by simpa using hI)

end Extraction

namespace Extraction

/-- C5: for every HTML document and every pair of techniques A and B, the
aggregator configured with [A, B] yields the list of each field with the
values of A (in extraction order of A) followed by the values of B, and
configured with [B, A] it yields the values of B followed by the values of A:
the merge is order-sensitive,
not a set. -/
theorem aggregate_order_sensitive (A B : Node → ExtDict) (doc : Node)
    (f : String) :
    fieldList (aggregate [A, B] doc) f = getAll (A doc) f ++ getAll (B doc) f ∧
    fieldList (aggregate [B, A] doc) f = getAll (B doc) f ++ getAll (A doc) f := by
  constructor <;>
    simp [aggregate, fieldList_mergeDict, fieldList_nil]

/-- C2 (amended): for every HTML input, no list returned by the base
`Technique`, `HeadTags`, `FacebookOpengraphTags`, `TwitterSummaryCardTags`,
`HTML5SemanticTags`, `SemanticTags` or `AddressTechnique` contains a Python
`None`; `LethainComTechnique` is the exception (see the counterexample). -/
theorem techniques_no_none (doc : Node) :
    noNoneB (techniqueExtract doc) = true ∧
    noNoneB (headTags doc) = true ∧
    noNoneB (facebookOpengraphTags doc) = true ∧
    noNoneB (twitterSummaryCardTags doc) = true ∧
    noNoneB (html5SemanticTags doc) = true ∧
    noNoneB (semanticTags doc) = true ∧
    noNoneB (addressTechnique doc) = true := by
  refine ⟨rfl, ?_, ?_, ?_, ?_, ?_, rfl⟩
  · rw [headTags]
    apply linkFold_noNone
    apply metaMapFold_noNone
    cases hh : (titleTexts doc).head? with
    | none => rfl
    | some t =>
        by_cases he : truthyOpt (some t) = true
        · rw [if_pos he]
          simp only [noNoneB, List.all_cons, List.all_nil, Bool.and_true]
          rfl
        · rw [if_neg he]
          rfl
  · exact metaMapFold_noNone _ _ _ _ rfl
  · exact metaMapFold_noNone _ _ _ _ rfl
  · rw [html5SemanticTags]
    simp only [noNoneB, List.all_cons, List.all_nil, Bool.and_true,
      Bool.and_eq_true]
    exact ⟨html5TitleFold_all _ _ rfl,
      html5DescFold_all _ _ rfl, html5VideoFold_all _ _ rfl⟩
  · rw [semanticTags]
    exact semAttrQueries_noNone doc _ _ (semStringQueries_noNone doc _ _ rfl)

/-- C2 counterexample: the claim "no technique output list ever contains
None" is false as stated: on a document with no recognizable tags,
`LethainComTechnique.extract` returns `[None]` for both `titles` and
`dates`. -/
theorem lethainCom_none_counterexample :
    noNoneB (lethainComTechnique noTagsDoc) = false ∧
    lethainComTechnique noTagsDoc =
      [("titles", [Option.none]), ("dates", [Option.none]),
       ("descriptions", [some ""]), ("tags", []), ("images", [])] := by
  constructor <;> decide

/-- C9: for every HTML input, every key of the mapping returned by each of
the eight techniques in the repository belongs to the known field vocabulary
titles, descriptions, images, urls, tags, dates, feeds, authors, videos,
addresses. -/
theorem technique_keys_in_vocab (doc : Node) :
    keysOkB (techniqueExtract doc) = true ∧
    keysOkB (headTags doc) = true ∧
    keysOkB (facebookOpengraphTags doc) = true ∧
    keysOkB (twitterSummaryCardTags doc) = true ∧
    keysOkB (html5SemanticTags doc) = true ∧
    keysOkB (semanticTags doc) = true ∧
    keysOkB (lethainComTechnique doc) = true ∧
    keysOkB (addressTechnique doc) = true := by
  refine ⟨rfl, ?_, ?_, ?_, rfl, ?_, rfl, rfl⟩
  · rw [headTags]
    apply linkFold_keysOk
    apply metaMapFold_keysOk _ _ (by decide)
    cases hh : (titleTexts doc).head? with
    | none => rfl
    | some t =>
        by_cases he : truthyOpt (some t) = true
        · rw [if_pos he]
          rfl
        · rw [if_neg he]
          rfl
  · exact metaMapFold_keysOk _ _ (by decide) _ _ rfl
  · exact metaMapFold_keysOk _ _ (by decide) _ _ rfl
  · rw [semanticTags]
    exact semAttrQueries_keysOk doc _ (by decide) _
      (semStringQueries_keysOk doc _ (by decide) _ rfl)

end Extraction

namespace Extraction

set_option maxRecDepth 10000

/-- C6 (code behavior at the failing input): on a document with none of the
tags any technique recognizes, `SemanticTags.extract` returns three empty
strings under `titles` and one under `descriptions` (its `string(...)`
queries always produce one result), `AddressTechnique.extract` returns one
empty string under `addresses`, and the best-value accessor of the aggregator
consequently returns the empty string, not none, for `titles` — contradicting
the claim that every field is empty or absent and every accessor returns
none.  The remaining techniques do return empty or absent fields. -/
theorem no_recognizable_tags_code_behavior :
    semanticTags noTagsDoc =
      [("titles", [some "", some "", some ""]), ("descriptions", [some ""])] ∧
    addressTechnique noTagsDoc = [("addresses", [some ""])] ∧
    bestOf (aggregate [facebookOpengraphTags, twitterSummaryCardTags,
      headTags, html5SemanticTags, semanticTags] noTagsDoc) "titles"
      = some "" ∧
    bestOf (aggregate [facebookOpengraphTags, twitterSummaryCardTags,
      headTags, html5SemanticTags, semanticTags] noTagsDoc) "descriptions"
      = some "" ∧
    headTags noTagsDoc = [] ∧
    facebookOpengraphTags noTagsDoc = [] ∧
    twitterSummaryCardTags noTagsDoc = [] ∧
    html5SemanticTags noTagsDoc =
      [("titles", []), ("descriptions", []), ("videos", [])] := by
  refine ⟨by decide, by decide, by decide, by decide, by decide, by decide,
    by decide, by decide⟩

/-- C7: the `AddressExtracted` constructor raises exactly when its
`addresses` argument is a value other than `None` that is neither a list nor
a tuple; `None` is replaced by the empty list, and a list or tuple is stored
unchanged. -/
theorem addressExtractedInit_spec (a : AddrArg) :
    ((∃ msg, addressExtractedInit a = Except.error msg) ↔
      (a ≠ AddrArg.pyNone ∧ isListOrTuple a = false)) ∧
    addressExtractedInit AddrArg.pyNone = Except.ok (AddrArg.pyList []) ∧
    (isListOrTuple a = true → addressExtractedInit a = Except.ok a) := by
  cases a <;> simp [addressExtractedInit, isListOrTuple]

/-- C7 witness: the theorem applied at a concrete list argument. -/
theorem addressExtractedInit_spec_witness :
    addressExtractedInit (AddrArg.pyList [some "221B Baker Street"])
      = Except.ok (AddrArg.pyList [some "221B Baker Street"]) :=
  (addressExtractedInit_spec (AddrArg.pyList [some "221B Baker Street"])).2.2
    (by decide)

/-- C8: the `address` accessor returns the first element of the stored
`addresses` when that list is non-empty, and Python `None` when it is
empty. -/
theorem addressProp_first_or_none (xs : List PyStr) :
    addressProp (AddrArg.pyList xs) = xs.headD Option.none ∧
    addressProp (AddrArg.pyTuple xs) = xs.headD Option.none := by
  cases xs <;> simp [addressProp, addrElems]

/-- C10: feeding the documented example snippets of the `HeadTags`,
`FacebookOpengraphTags` and `HTML5SemanticTags` docstrings to the respective
`extract` reproduces exactly the documented field values; in particular, on
the HTML5 example, `titles` is `["This is a title"]` (the `h1` outside the
`article` is excluded), `descriptions` is `["This is a description."]` (the
second paragraph is excluded), and `videos` is `["this_is_a_video.mp4"]`. -/
theorem docstring_examples_roundtrip :
    headTags headExample =
      [("titles",
        [some "Digg v4\x27s Architecture and Development Processes - Irrational Exuberance"]),
       ("authors", [some "Will Larson"]),
       ("descriptions",
        [some "Will Larson\x27s blog about programming and other things."]),
       ("feeds", [some "/feeds/"]),
       ("urls", [some "http://lethain.com/digg-v4-architecture-process/"])] ∧
    facebookOpengraphTags fbExample =
      [("titles", [some "The Rock"]),
       ("urls", [some "http://www.imdb.com/title/tt0117500/"]),
       ("images", [some "http://ia.media-imdb.com/rock.jpg"]),
       ("descriptions",
        [some "A group of U.S. Marines, under command of\n                     a renegade general, take over Alcatraz and\n                     threaten San Francisco Bay with biological\n                     weapons."])] ∧
    html5SemanticTags html5Example =
      [("titles", [some "This is a title"]),
       ("descriptions", [some "This is a description."]),
       ("videos", [some "this_is_a_video.mp4"])] := by
  refine ⟨by decide, by decide, by decide⟩

/-- C3 witness: the theorem applied to the `HeadTags` docstring example. -/
theorem headTags_title_singleton_witness :
    dictGet? (headTags headExample) "titles" =
      some [some "Digg v4\x27s Architecture and Development Processes - Irrational Exuberance"] :=
  headTags_title_singleton headExample
    "Digg v4\x27s Architecture and Development Processes - Irrational Exuberance"
    (by decide) (by decide)

/-- C4 witness: the theorem applied to the `FacebookOpengraphTags` docstring
example. -/
theorem facebookOpengraph_fields_witness :
    dictGet? (facebookOpengraphTags fbExample) "titles"
      = some ((ogMetaContents fbExample "og:title").map some) ∧
    dictGet? (facebookOpengraphTags fbExample) "descriptions"
      = some ((ogMetaContents fbExample "og:description").map some) ∧
    dictGet? (facebookOpengraphTags fbExample) "images"
      = some ((ogMetaContents fbExample "og:image").map some) :=
  facebookOpengraph_fields fbExample (by decide) (by decide) (by decide)

end Extraction
